import Mathlib

/-!
Verification of the substitution-graph learner (`SLG-Learner.py`).

A corpus is a list of sequences, each sequence a list of symbols (`List α`).
The script builds, in `Substitution_Graph.__init__`, a dictionary mapping a
context `(l, r)` to the set of substrings observed between `l` and `r`, then
derives the congruence classes; `algorithm_one_two` turns the graph into a
grammar.  Python dictionaries and sets are represented here by duplicate-free
lists of entries in insertion order (a dict of sets is determined by its set
of (key, member) pairs; keeping the list fixes one enumeration order, matching
the role of Python's arbitrary but fixed iteration order).
-/

set_option linter.unusedSectionVars false
set_option linter.unusedVariables false

namespace SLG

variable {α : Type} [DecidableEq α]

/-- A context: the pair `(l, r)` of the symbols before and after an occurrence. -/
abbrev Ctx (α : Type) := List α × List α

/-- The (context, substring) pairs contributed by one word of the corpus, in loop
order: for `i` in `[0, len)` and `j` in `[0, len - i)`, the entry is
`l = word[0:j]`, `u = word[j:j+i+1]`, `r = word[j+i+1:]`, recorded as `((l, r), u)`. -/
def occurrences (word : List α) : List (Ctx α × List α) :=
  (List.range word.length).flatMap fun i =>
    (List.range (word.length - i)).map fun j =>
      ((word.take j, word.drop (j + i + 1)), (word.drop j).take (i + 1))

/-- The `contexts` dictionary of `Substitution_Graph.__init__`, represented as the
duplicate-free list of its (context, member) pairs in insertion order. -/
def build_contexts (s : List (List α)) : List (Ctx α × List α) :=
  (s.flatMap occurrences).dedup

/-- The key set of the context dictionary. -/
def keys (pairs : List (Ctx α × List α)) : Finset (Ctx α) :=
  (pairs.map Prod.fst).toFinset

/-- `contexts[c]` as a list in insertion order (the enumeration the Python code
gets when it iterates or lists the member set of `c`). -/
def memberList (pairs : List (Ctx α × List α)) (c : Ctx α) : List (List α) :=
  (pairs.filter fun p => decide (p.1 = c)).map Prod.snd

/-- `contexts[c]` as a set (empty when `c` is not a key). -/
def members (pairs : List (Ctx α × List α)) (c : Ctx α) : Finset (List α) :=
  (memberList pairs c).toFinset

/-- The vertices in first-appearance order, as iterated when seeding the classes. -/
def vertices_list (pairs : List (Ctx α × List α)) : List (List α) :=
  (pairs.map Prod.snd).dedup

/-- The class seeded at `v` in `__init__`: `eq = {v}`, then for every context `c`
with `v ∈ contexts[c]` and `len(contexts[c]) > 1`, `eq.update(contexts[c])`. -/
def class_of (pairs : List (Ctx α × List α)) (v : List α) : Finset (List α) :=
  insert v ((keys pairs).biUnion fun c =>
    if v ∈ members pairs c ∧ 1 < (members pairs c).card then members pairs c else ∅)

/-- The substitution graph: its name, the context dictionary (as entry pairs), and
the set of congruence classes (as a duplicate-free list in construction order). -/
structure Substitution_Graph (α : Type) [DecidableEq α] where
  name : String
  contexts : List (Ctx α × List α)
  eq_classes : List (Finset (List α))

/-- `Substitution_Graph.__init__`: build the context dictionary from the corpus
`s`, then seed one class per vertex and store the distinct class values. -/
def mk_graph (name : String) (s : List (List α)) : Substitution_Graph α :=
  { name := name
    contexts := build_contexts s
    eq_classes :=
      ((vertices_list (build_contexts s)).map (class_of (build_contexts s))).dedup }

/-- `get_eq`: scan the stored classes and return the first one containing `sym`;
the fall-through `return None` is the `none` result. -/
def Substitution_Graph.get_eq (g : Substitution_Graph α) (sym : List α) :
    Option (Finset (List α)) :=
  g.eq_classes.find? fun e => decide (sym ∈ e)

/-- `get_vertices`: every member of every context's member set. -/
def Substitution_Graph.get_vertices (g : Substitution_Graph α) : Finset (List α) :=
  (g.contexts.map Prod.snd).toFinset

/-- The list of pairs of consecutive elements of `l`. -/
def consecPairs {β : Type} (l : List β) : List (β × β) := l.zip l.tail

/-- `get_edges`: for every context key whose member list has more than one
element, connect each consecutive pair of the enumeration; collect into a set. -/
def Substitution_Graph.get_edges (g : Substitution_Graph α) :
    Finset (List α × List α) :=
  (((g.contexts.map Prod.fst).dedup).flatMap fun c =>
    if 1 < (memberList g.contexts c).length then consecPairs (memberList g.contexts c)
    else []).toFinset

/-- A production right-hand side: either a terminal substring `u`, or a pair of
`get_eq` results (the Python tuple `(vnext, wnext)`, each possibly `None`). -/
inductive RHS (α : Type) where
  | term : List α → RHS α
  | split : Option (Finset (List α)) → Option (Finset (List α)) → RHS α
deriving DecidableEq

/-- The grammar object: alphabet, non-terminals, productions (the `p_hat`
dictionary, as the set of its (left-hand side, right-hand side) pairs), starts. -/
structure Grammar (α : Type) where
  name : String
  alphabet : Finset (List α)
  non_terminals : Finset (Finset (List α))
  productions : Finset (Option (Finset (List α)) × RHS α)
  starts : Finset (List α)

/-- The productions contributed by one vertex `u` in `algorithm_one_two`: if
`len(u) == 1` a terminal rule, otherwise one split rule per `i in range(1, len(u))`. -/
def prodList (g : Substitution_Graph α) (u : List α) :
    List (Option (Finset (List α)) × RHS α) :=
  if u.length = 1 then [(g.get_eq u, RHS.term u)]
  else (List.range' 1 (u.length - 1)).map fun i =>
    (g.get_eq u, RHS.split (g.get_eq (u.take i)) (g.get_eq (u.drop i)))

/-- `algorithm_one_two`: alphabet is the vertex set, non-terminals the class
values, productions accumulate `p_hat` over all vertices, and `s_hat` collects
the corpus sequences verbatim. -/
def algorithm_one_two (g : Substitution_Graph α) (s_prime : List (List α)) :
    Grammar α :=
  { name := g.name
    alphabet := g.get_vertices
    non_terminals := g.eq_classes.toFinset
    productions := ((vertices_list g.contexts).flatMap (prodList g)).toFinset
    starts := s_prime.foldl (fun acc w => insert w acc) ∅ }

/-- The spec-side component formula, written from the spec's words: for a vertex
`v`, `classOf(v) = {v} ∪ ⋃ \x7b members(c) : c a Context, v ∈ members(c),
|members(c)| > 1 \x7d`. -/
def classOf_spec (pairs : List (Ctx α × List α)) (v : List α) : Finset (List α) :=
  {v} ∪ ((keys pairs).filter fun c =>
    v ∈ members pairs c ∧ 1 < (members pairs c).card).biUnion (members pairs)

theorem mem_occurrences {word : List α} {p : Ctx α × List α} :
    p ∈ occurrences word ↔ ∃ i j, i < word.length ∧ j < word.length - i ∧
      p = ((word.take j, word.drop (j + i + 1)), (word.drop j).take (i + 1)) := by
  simp only [occurrences, List.mem_flatMap, List.mem_map, List.mem_range]
  constructor
  · rintro ⟨i, hi, j, hj, rfl⟩
    exact ⟨i, j, hi, hj, rfl⟩
  · rintro ⟨i, j, hi, hj, rfl⟩
    exact ⟨i, hi, j, hj, rfl⟩

theorem mem_get_vertices {name : String} {s : List (List α)} {u : List α} :
    u ∈ (mk_graph (α := α) name s).get_vertices ↔
      ∃ w ∈ s, ∃ i j, i < w.length ∧ j < w.length - i ∧
        u = (w.drop j).take (i + 1) := by
  simp only [mk_graph, Substitution_Graph.get_vertices, build_contexts,
    List.mem_toFinset, List.mem_map, List.mem_dedup, List.mem_flatMap]
  constructor
  · rintro ⟨p, ⟨w, hw, hp⟩, rfl⟩
    obtain ⟨i, j, hi, hj, rfl⟩ := mem_occurrences.mp hp
    exact ⟨w, hw, i, j, hi, hj, rfl⟩
  · rintro ⟨w, hw, i, j, hi, hj, rfl⟩
    exact ⟨((w.take j, w.drop (j + i + 1)), (w.drop j).take (i + 1)),
      ⟨w, hw, mem_occurrences.mpr ⟨i, j, hi, hj, rfl⟩⟩, rfl⟩

theorem slice_iff_infix {w u : List α} :
    (∃ i j, i < w.length ∧ j < w.length - i ∧ u = (w.drop j).take (i + 1)) ↔
      u ≠ [] ∧ u <:+: w := by
  constructor
  · rintro ⟨i, j, hi, hj, rfl⟩
    have hlen : ((w.drop j).take (i + 1)).length = i + 1 := by
      simp only [List.length_take, List.length_drop]
      omega
    refine ⟨by intro h; rw [h] at hlen; simp at hlen, ?_⟩
    refine ⟨w.take j, (w.drop j).drop (i + 1), ?_⟩
    rw [List.append_assoc, List.take_append_drop, List.take_append_drop]
  · rintro ⟨hu, l, r, rfl⟩
    have hul : 0 < u.length := List.length_pos.mpr hu
    refine ⟨u.length - 1, l.length, by simp [List.length_append]; omega,
      by simp [List.length_append]; omega, ?_⟩
    have h1 : u.length - 1 + 1 = u.length := by omega
    rw [h1, List.append_assoc, List.drop_left, List.take_left]

/-- C5: for every non-empty corpus, `get_vertices` of the substitution graph is
exactly the set of contiguous non-empty substrings of the corpus sequences. -/
theorem vertices_eq_substrings (name : String) (s : List (List α)) (u : List α)
    (hs : s ≠ []) :
    u ∈ (mk_graph (α := α) name s).get_vertices ↔
      u ≠ [] ∧ ∃ w ∈ s, u <:+: w := by
  rw [mem_get_vertices]
  constructor
  · rintro ⟨w, hw, hrest⟩
    obtain ⟨hu, hinf⟩ := slice_iff_infix.mp hrest
    exact ⟨hu, w, hw, hinf⟩
  · rintro ⟨hu, w, hw, hinf⟩
    exact ⟨w, hw, slice_iff_infix.mpr ⟨hu, hinf⟩⟩

/-- Witness for C5 at the corpus `[[0, 1]]` and the substring `[1]`. -/
theorem vertices_eq_substrings_witness :
    ([[0, 1]] : List (List Nat)) ≠ [] ∧
      ([1] ∈ (mk_graph "SG" ([[0, 1]] : List (List Nat))).get_vertices ↔
        [1] ≠ [] ∧ ∃ w ∈ ([[0, 1]] : List (List Nat)), [1] <:+: w) :=
  ⟨by decide, vertices_eq_substrings "SG" [[0, 1]] [1] (by decide)⟩

theorem members_subset_vertices {pairs : List (Ctx α × List α)} {c : Ctx α}
    {x : List α} (hx : x ∈ members pairs c) : x ∈ (pairs.map Prod.snd).toFinset := by
  simp only [members, memberList, List.mem_toFinset, List.mem_map] at hx ⊢
  obtain ⟨p, hp, rfl⟩ := hx
  exact ⟨p, List.mem_of_mem_filter hp, rfl⟩

theorem mem_eq_classes_iff {name : String} {s : List (List α)}
    {e : Finset (List α)} :
    e ∈ (mk_graph (α := α) name s).eq_classes ↔
      ∃ v ∈ vertices_list (build_contexts s), e = class_of (build_contexts s) v := by
  simp only [mk_graph, List.mem_dedup, List.mem_map]
  constructor
  · rintro ⟨v, hv, rfl⟩
    exact ⟨v, hv, rfl⟩
  · rintro ⟨v, hv, rfl⟩
    exact ⟨v, hv, rfl⟩

theorem mem_vertices_list_iff {s : List (List α)} {v : List α} :
    v ∈ vertices_list (build_contexts s) ↔
      v ∈ (mk_graph (α := α) name s).get_vertices := by
  simp [vertices_list, build_contexts, mk_graph, Substitution_Graph.get_vertices]

theorem class_elem_is_vertex {name : String} {s : List (List α)}
    {e : Finset (List α)} {x : List α}
    (he : e ∈ (mk_graph (α := α) name s).eq_classes) (hx : x ∈ e) :
    x ∈ (mk_graph (α := α) name s).get_vertices := by
  obtain ⟨v, hv, rfl⟩ := mem_eq_classes_iff.mp he
  simp only [class_of, Finset.mem_insert, Finset.mem_biUnion] at hx
  rcases hx with rfl | ⟨c, hc, hxc⟩
  · exact mem_vertices_list_iff.mp hv
  · by_cases hcond : x ∈ members (build_contexts s) c ∧
        1 < (members (build_contexts s) c).card
    · exact members_subset_vertices hcond.1
    · split_ifs at hxc with hcond2
      · exact members_subset_vertices hxc
      · simp at hxc

theorem get_eq_mem_classes {name : String} {s : List (List α)} {v : List α}
    (hv : v ∈ (mk_graph (α := α) name s).get_vertices) :
    ∃ e, (mk_graph (α := α) name s).get_eq v = some e ∧
      e ∈ (mk_graph (α := α) name s).eq_classes ∧ v ∈ e := by
  have hvl : v ∈ vertices_list (build_contexts s) := mem_vertices_list_iff.mpr hv
  have hcls : class_of (build_contexts s) v ∈ (mk_graph (α := α) name s).eq_classes :=
    mem_eq_classes_iff.mpr ⟨v, hvl, rfl⟩
  have hself : v ∈ class_of (build_contexts s) v := Finset.mem_insert_self _ _
  have hsome : ((mk_graph (α := α) name s).eq_classes.find?
      fun e => decide (v ∈ e)).isSome := by
    rw [List.find?_isSome]
    exact ⟨_, hcls, by simpa using hself⟩
  obtain ⟨e, he⟩ := Option.isSome_iff_exists.mp hsome
  refine ⟨e, he, List.mem_of_find?_eq_some he, ?_⟩
  have := List.find?_some he
  simpa using this

/-- C6: every vertex of a substitution graph has a congruence class: `get_eq`
succeeds on it and the returned class contains the vertex itself. -/
theorem get_eq_self_membership (name : String) (s : List (List α)) (v : List α)
    (hv : v ∈ (mk_graph (α := α) name s).get_vertices) :
    ∃ e, (mk_graph (α := α) name s).get_eq v = some e ∧ v ∈ e := by
  obtain ⟨e, he, _, hve⟩ := get_eq_mem_classes hv
  exact ⟨e, he, hve⟩

/-- Witness for C6 at the corpus `[[0]]` and the vertex `[0]`. -/
theorem get_eq_self_membership_witness :
    [0] ∈ (mk_graph "SG" ([[0]] : List (List Nat))).get_vertices ∧
      ∃ e, (mk_graph "SG" ([[0]] : List (List Nat))).get_eq [0] = some e ∧
        [0] ∈ e :=
  ⟨by decide, get_eq_self_membership "SG" [[0]] [0] (by decide)⟩

/-- C1 counterexample: at the corpus `[[0]]`, querying `get_eq` with the
never-inserted value `[1]` does not fail: it silently evaluates to the default
`none` (Python `None`), refuting the claim that such a query raises a
`LookupError` and never returns a default. -/
theorem get_eq_miss_returns_none_cex :
    [1] ∉ (mk_graph "SG" ([[0]] : List (List Nat))).get_vertices ∧
      (mk_graph "SG" ([[0]] : List (List Nat))).get_eq [1] = none := by
  decide

/-- C1 (amended): querying `get_eq` with a value never inserted as a vertex
returns `none` (the `return None` fall-through), with no exception raised. -/
theorem get_eq_none_of_not_vertex (name : String) (s : List (List α))
    (sym : List α) (h : sym ∉ (mk_graph (α := α) name s).get_vertices) :
    (mk_graph (α := α) name s).get_eq sym = none := by
  rw [Substitution_Graph.get_eq, List.find?_eq_none]
  intro e he
  simp only [decide_eq_true_eq]
  intro hmem
  exact h (class_elem_is_vertex he hmem)

/-- Witness for the amended C1 at the corpus `[[0]]` and the query `[1]`. -/
theorem get_eq_none_of_not_vertex_witness :
    [1] ∉ (mk_graph "SG2" ([[0]] : List (List Nat))).get_vertices ∧
      (mk_graph "SG2" ([[0]] : List (List Nat))).get_eq [1] = none :=
  ⟨by decide, get_eq_none_of_not_vertex "SG2" [[0]] [1] (by decide)⟩

theorem class_of_eq_spec (pairs : List (Ctx α × List α)) (v : List α) :
    class_of pairs v = classOf_spec pairs v := by
  ext x
  simp only [class_of, classOf_spec, Finset.mem_insert, Finset.mem_union,
    Finset.mem_singleton, Finset.mem_biUnion, Finset.mem_filter]
  constructor
  · rintro (rfl | ⟨c, hc, hx⟩)
    · exact Or.inl rfl
    · split_ifs at hx with hcond
      · exact Or.inr ⟨c, ⟨hc, hcond⟩, hx⟩
      · simp at hx
  · rintro (rfl | ⟨c, ⟨hc, hcond⟩, hx⟩)
    · exact Or.inl rfl
    · refine Or.inr ⟨c, hc, ?_⟩
      rw [if_pos hcond]
      exact hx

/-- C2: the stored component collection is exactly the set of one-hop classes
`classOf(v)` over all vertices `v`, deduplicated by value (no class value is
stored twice). -/
theorem eq_classes_eq_image_classOf (name : String) (s : List (List α)) :
    ((mk_graph (α := α) name s).eq_classes).Nodup ∧
    ((mk_graph (α := α) name s).eq_classes).toFinset =
      ((mk_graph (α := α) name s).get_vertices).image
        (classOf_spec (mk_graph (α := α) name s).contexts) := by
  refine ⟨List.nodup_dedup _, ?_⟩
  have hctx : (mk_graph (α := α) name s).contexts = build_contexts s := rfl
  rw [hctx]
  ext e
  simp only [List.mem_toFinset, Finset.mem_image]
  rw [mem_eq_classes_iff]
  constructor
  · rintro ⟨v, hv, rfl⟩
    exact ⟨v, mem_vertices_list_iff.mp hv,
      (class_of_eq_spec (build_contexts s) v).symm⟩
  · rintro ⟨v, hv, rfl⟩
    exact ⟨v, mem_vertices_list_iff.mpr hv,
      (class_of_eq_spec (build_contexts s) v).symm⟩

theorem mem_prodList {g : Substitution_Graph α} {u : List α}
    {q : Option (Finset (List α)) × RHS α} :
    q ∈ prodList g u ↔
      (u.length = 1 ∧ q = (g.get_eq u, RHS.term u)) ∨
      (u.length ≠ 1 ∧ ∃ i, 1 ≤ i ∧ i < u.length ∧
        q = (g.get_eq u, RHS.split (g.get_eq (u.take i)) (g.get_eq (u.drop i)))) := by
  rw [prodList]
  split_ifs with h
  · simp [h]
  · constructor
    · intro hq
      simp only [List.mem_map, List.mem_range'_1] at hq
      obtain ⟨i, ⟨h1, h2⟩, heq⟩ := hq
      exact Or.inr ⟨h, i, h1, by omega, heq.symm⟩
    · rintro (⟨h1, -⟩ | ⟨h1, i, hi1, hi2, heq⟩)
      · exact absurd h1 h
      · simp only [List.mem_map, List.mem_range'_1]
        exact ⟨i, ⟨hi1, by omega⟩, heq.symm⟩

theorem mem_productions {name : String} {s : List (List α)}
    {q : Option (Finset (List α)) × RHS α} :
    q ∈ (algorithm_one_two (mk_graph (α := α) name s) s).productions ↔
      ∃ u ∈ (mk_graph (α := α) name s).get_vertices,
        q ∈ prodList (mk_graph (α := α) name s) u := by
  have hctx : (mk_graph (α := α) name s).contexts = build_contexts s := rfl
  show q ∈ ((vertices_list (mk_graph (α := α) name s).contexts).flatMap
      (prodList (mk_graph (α := α) name s))).toFinset ↔ _
  rw [hctx, List.mem_toFinset, List.mem_flatMap]
  constructor
  · rintro ⟨u, hu, hq⟩
    exact ⟨u, mem_vertices_list_iff.mp hu, hq⟩
  · rintro ⟨u, hu, hq⟩
    exact ⟨u, mem_vertices_list_iff.mpr hu, hq⟩

/-- C3: the productions of the grammar built from a corpus consist, for each
vertex `u` of the graph and keyed by `get_eq u`, of exactly the terminal rule
`u` when `u` has one symbol, and otherwise the split rules
`(get_eq u[0:i], get_eq u[i:])` for the split points `1 ≤ i < length u` —
nothing else, with set semantics. -/
theorem productions_characterization (name : String) (s : List (List α))
    (k : Option (Finset (List α))) (rhs : RHS α) :
    (k, rhs) ∈ (algorithm_one_two (mk_graph (α := α) name s) s).productions ↔
      ∃ u ∈ (mk_graph (α := α) name s).get_vertices,
        k = (mk_graph (α := α) name s).get_eq u ∧
        ((u.length = 1 ∧ rhs = RHS.term u) ∨
         (u.length ≠ 1 ∧ ∃ i, 1 ≤ i ∧ i < u.length ∧
           rhs = RHS.split ((mk_graph (α := α) name s).get_eq (u.take i))
             ((mk_graph (α := α) name s).get_eq (u.drop i)))) := by
  rw [mem_productions]
  constructor
  · rintro ⟨u, hu, hq⟩
    rcases mem_prodList.mp hq with ⟨h1, heq⟩ | ⟨h1, i, hi1, hi2, heq⟩
    · rw [Prod.mk.injEq] at heq
      exact ⟨u, hu, heq.1, Or.inl ⟨h1, heq.2⟩⟩
    · rw [Prod.mk.injEq] at heq
      exact ⟨u, hu, heq.1, Or.inr ⟨h1, i, hi1, hi2, heq.2⟩⟩
  · rintro ⟨u, hu, rfl, hcase⟩
    refine ⟨u, hu, mem_prodList.mpr ?_⟩
    rcases hcase with ⟨h1, rfl⟩ | ⟨h1, i, hi1, hi2, rfl⟩
    · exact Or.inl ⟨h1, rfl⟩
    · exact Or.inr ⟨h1, i, hi1, hi2, rfl⟩

theorem foldl_insert_eq_toFinset (l : List (List α)) (acc : Finset (List α)) :
    l.foldl (fun a w => insert w a) acc = acc ∪ l.toFinset := by
  induction l generalizing acc with
  | nil => simp
  | cons x xs ih =>
    rw [List.foldl_cons, ih]
    ext a
    simp only [Finset.mem_union, Finset.mem_insert, List.toFinset_cons,
      List.mem_toFinset]
    tauto

/-- C4: the start-symbol set of the grammar is exactly the set of distinct
whole corpus sequences, verbatim. -/
theorem starts_eq_corpus (name : String) (s : List (List α)) :
    (algorithm_one_two (mk_graph (α := α) name s) s).starts = s.toFinset := by
  show s.foldl (fun acc w => insert w acc) ∅ = s.toFinset
  rw [foldl_insert_eq_toFinset]
  simp

theorem infix_mem_vertices {name : String} {s : List (List α)} {w x : List α}
    (hx : x ≠ []) (hw : w ∈ s) (hinf : x <:+: w) :
    x ∈ (mk_graph (α := α) name s).get_vertices :=
  mem_get_vertices.mpr ⟨w, hw, slice_iff_infix.mpr ⟨hx, hinf⟩⟩

/-- C10: in a grammar built from a corpus, every split production right-hand
side is a pair of actual congruence classes of the graph: the `None` branch of
`get_eq` never fires for the splits of a multi-symbol vertex. -/
theorem split_rules_total (name : String) (s : List (List α))
    (k l r : Option (Finset (List α)))
    (h : (k, RHS.split l r) ∈
      (algorithm_one_two (mk_graph (α := α) name s) s).productions) :
    (∃ cl ∈ (mk_graph (α := α) name s).eq_classes, l = some cl) ∧
      ∃ cr ∈ (mk_graph (α := α) name s).eq_classes, r = some cr := by
  obtain ⟨u, hu, hq⟩ := mem_productions.mp h
  rcases mem_prodList.mp hq with ⟨_, heq⟩ | ⟨h1, i, hi1, hi2, heq⟩
  · exact absurd (congrArg Prod.snd heq) (by simp)
  · rw [Prod.mk.injEq, RHS.split.injEq] at heq
    obtain ⟨-, hl, hr⟩ := heq
    obtain ⟨w, hw, hslice⟩ := mem_get_vertices.mp hu
    obtain ⟨hune, lw, rr, hdec⟩ :
        u ≠ [] ∧ ∃ lw rr, lw ++ u ++ rr = w := slice_iff_infix.mp hslice
    have hglue : u.take i ++ (u.drop i ++ rr) = u ++ rr := by
      rw [← List.append_assoc, List.take_append_drop]
    have htake : u.take i ∈ (mk_graph (α := α) name s).get_vertices := by
      refine infix_mem_vertices ?_ hw ⟨lw, u.drop i ++ rr, ?_⟩
      · have hlt : (u.take i).length = i := by
          rw [List.length_take]
          omega
        intro hnil
        rw [hnil] at hlt
        simp at hlt
        omega
      · rw [← hdec]
        simp only [List.append_assoc]
        rw [hglue]
    have hdrop : u.drop i ∈ (mk_graph (α := α) name s).get_vertices := by
      refine infix_mem_vertices ?_ hw ⟨lw ++ u.take i, rr, ?_⟩
      · have hlt : (u.drop i).length = u.length - i := List.length_drop _ _
        intro hnil
        rw [hnil] at hlt
        simp at hlt
        omega
      · rw [← hdec]
        simp only [List.append_assoc]
        rw [hglue]
    obtain ⟨el, hel, helm, -⟩ := get_eq_mem_classes htake
    obtain ⟨er, her, herm, -⟩ := get_eq_mem_classes hdrop
    exact ⟨⟨el, helm, hl ▸ hel⟩, ⟨er, herm, hr ▸ her⟩⟩

/-- Witness for C10 at the corpus `[[0, 1]]` and its split production. -/
theorem split_rules_total_witness :
    (some ({[0, 1]} : Finset (List Nat)),
        RHS.split (some {[0]}) (some {[1]})) ∈
      (algorithm_one_two (mk_graph "SG" ([[0, 1]] : List (List Nat)))
        [[0, 1]]).productions ∧
      ((∃ cl ∈ (mk_graph "SG" ([[0, 1]] : List (List Nat))).eq_classes,
          (some ({[0]} : Finset (List Nat))) = some cl) ∧
        ∃ cr ∈ (mk_graph "SG" ([[0, 1]] : List (List Nat))).eq_classes,
          (some ({[1]} : Finset (List Nat))) = some cr) :=
  ⟨by decide, split_rules_total "SG" [[0, 1]] (some {[0, 1]})
    (some {[0]}) (some {[1]}) (by decide)⟩

theorem mem_consecPairs {β : Type} (l : List β) (a b : β) :
    (a, b) ∈ consecPairs l ↔ ∃ i, l[i]? = some a ∧ l[i + 1]? = some b := by
  induction l with
  | nil => simp [consecPairs]
  | cons x xs ih =>
    cases xs with
    | nil =>
      constructor
      · intro h
        simp [consecPairs] at h
      · rintro ⟨i, h1, h2⟩
        rcases i with - | j
        · simp at h2
        · simp at h1
    | cons y t =>
      show (a, b) ∈ (x, y) :: consecPairs (y :: t) ↔ _
      rw [List.mem_cons, ih]
      constructor
      · rintro (heq | ⟨i, h1, h2⟩)
        · rw [Prod.mk.injEq] at heq
          exact ⟨0, by simp [heq.1], by simp [heq.2]⟩
        · exact ⟨i + 1, by simpa using h1, by simpa using h2⟩
      · rintro ⟨i, h1, h2⟩
        rcases i with - | j
        · simp only [List.getElem?_cons_zero, Option.some.injEq] at h1
          simp only [List.getElem?_cons_succ, List.getElem?_cons_zero,
            Option.some.injEq] at h2
          refine Or.inl ?_
          rw [Prod.mk.injEq]
          exact ⟨h1.symm, h2.symm⟩
        · simp only [List.getElem?_cons_succ] at h1 h2
          exact Or.inr ⟨j, h1, by simpa using h2⟩

theorem memberList_nodup (s : List (List α)) (c : Ctx α) :
    (memberList (build_contexts s) c).Nodup := by
  rw [memberList]
  apply List.Nodup.map_on
  · intro x hx y hy hxy
    have hx1 := of_decide_eq_true (List.mem_filter.mp hx).2
    have hy1 := of_decide_eq_true (List.mem_filter.mp hy).2
    exact Prod.ext (hx1.trans hy1.symm) hxy
  · exact (List.nodup_dedup _).filter _

theorem consec_ne {β : Type} {l : List β} (hl : l.Nodup) {i : ℕ} {a b : β}
    (h1 : l[i]? = some a) (h2 : l[i + 1]? = some b) : a ≠ b := by
  intro hab
  obtain ⟨hi, -⟩ := List.getElem?_eq_some.mp h1
  have : i = i + 1 := List.getElem?_inj hi hl (by rw [h1, h2, hab])
  omega

theorem mem_of_getElem?_some {β : Type} {l : List β} {i : ℕ} {a : β}
    (h : l[i]? = some a) : a ∈ l := by
  obtain ⟨hi, rfl⟩ := List.getElem?_eq_some.mp h
  exact List.getElem_mem hi

theorem mem_get_edges {name : String} {s : List (List α)} {u v : List α} :
    (u, v) ∈ (mk_graph (α := α) name s).get_edges ↔
      ∃ c ∈ ((mk_graph (α := α) name s).contexts.map Prod.fst).dedup,
        1 < (memberList (mk_graph (α := α) name s).contexts c).length ∧
        ∃ i, (memberList (mk_graph (α := α) name s).contexts c)[i]? = some u ∧
          (memberList (mk_graph (α := α) name s).contexts c)[i + 1]? = some v := by
  rw [Substitution_Graph.get_edges, List.mem_toFinset, List.mem_flatMap]
  constructor
  · rintro ⟨c, hc, hm⟩
    split_ifs at hm with hlen
    · exact ⟨c, hc, hlen, (mem_consecPairs _ _ _).mp hm⟩
    · simp at hm
  · rintro ⟨c, hc, hlen, hi⟩
    refine ⟨c, hc, ?_⟩
    rw [if_pos hlen]
    exact (mem_consecPairs _ _ _).mpr hi

/-- C7: membership in `get_edges` of a graph built from a corpus is exactly
"`(u, v)` are consecutive elements of the member enumeration of some context
with more than one member"; in particular the two endpoints are distinct and
co-occur in a context whose member set has cardinality greater than one. -/
theorem edges_characterization (name : String) (s : List (List α))
    (u v : List α) :
    (u, v) ∈ (mk_graph (α := α) name s).get_edges ↔
      ((∃ c ∈ ((mk_graph (α := α) name s).contexts.map Prod.fst).dedup,
          1 < (memberList (mk_graph (α := α) name s).contexts c).length ∧
          ∃ i, (memberList (mk_graph (α := α) name s).contexts c)[i]? = some u ∧
            (memberList (mk_graph (α := α) name s).contexts c)[i + 1]? = some v) ∧
        u ≠ v ∧
        ∃ c, u ∈ members (mk_graph (α := α) name s).contexts c ∧
          v ∈ members (mk_graph (α := α) name s).contexts c ∧
          1 < (members (mk_graph (α := α) name s).contexts c).card) := by
  have hctx : (mk_graph (α := α) name s).contexts = build_contexts s := rfl
  constructor
  · intro h
    obtain ⟨c, hc, hlen, i, h1, h2⟩ := mem_get_edges.mp h
    have hnd : (memberList (mk_graph (α := α) name s).contexts c).Nodup := by
      rw [hctx]
      exact memberList_nodup s c
    have hcard : (members (mk_graph (α := α) name s).contexts c).card =
        (memberList (mk_graph (α := α) name s).contexts c).length := by
      rw [members]
      exact List.toFinset_card_of_nodup hnd
    refine ⟨⟨c, hc, hlen, i, h1, h2⟩, consec_ne hnd h1 h2, c, ?_, ?_, ?_⟩
    · rw [members, List.mem_toFinset]
      exact mem_of_getElem?_some h1
    · rw [members, List.mem_toFinset]
      exact mem_of_getElem?_some h2
    · omega
  · rintro ⟨hchar, -, -⟩
    exact mem_get_edges.mpr hchar

/-- C8: the one-symbol corpus `[[0]]` yields a context index with exactly one
entry `((ε, ε) ↦ \x7b[0]\x7d)`, one vertex, no edges, and a grammar with exactly
one production, a terminal rule. -/
theorem single_symbol_corpus :
    (mk_graph "SG" ([[0]] : List (List Nat))).contexts =
        [((([] : List Nat), ([] : List Nat)), [0])] ∧
      (mk_graph "SG" ([[0]] : List (List Nat))).get_vertices = {[0]} ∧
      (mk_graph "SG" ([[0]] : List (List Nat))).get_edges = ∅ ∧
      (algorithm_one_two (mk_graph "SG" ([[0]] : List (List Nat)))
          [[0]]).productions = {(some {[0]}, RHS.term [0])} := by
  decide

/-- State-passing form of `get_vertices`: the method only reads `contexts` and
assigns no field of `self`, so the receiver comes back unchanged. -/
def Substitution_Graph.get_vertices_st (g : Substitution_Graph α) :
    Finset (List α) × Substitution_Graph α :=
  (g.get_vertices, g)

/-- State-passing form of `get_edges`: the method only reads `contexts` and
assigns no field of `self`, so the receiver comes back unchanged. -/
def Substitution_Graph.get_edges_st (g : Substitution_Graph α) :
    Finset (List α × List α) × Substitution_Graph α :=
  (g.get_edges, g)

/-- State-passing form of `get_eq`: the method only reads `eq_classes` and
assigns no field of `self`, so the receiver comes back unchanged. -/
def Substitution_Graph.get_eq_st (g : Substitution_Graph α) (sym : List α) :
    Option (Finset (List α)) × Substitution_Graph α :=
  (g.get_eq sym, g)

/-- State-passing form of `algorithm_one_two`: the builder only reads the graph
(`eq_classes`, `get_vertices`, `get_eq`, `name`) and assigns none of its
fields, so the graph comes back unchanged beside the new grammar. -/
def algorithm_one_two_st (g : Substitution_Graph α) (s_prime : List (List α)) :
    Grammar α × Substitution_Graph α :=
  (algorithm_one_two g s_prime, g)

/-- C9: the query operations and the grammar builder leave the graph's context
index, component collection and name unchanged. -/
theorem queries_preserve_graph (g : Substitution_Graph α) (sym : List α)
    (s_prime : List (List α)) :
    ((g.get_vertices_st.2.contexts = g.contexts ∧
        g.get_vertices_st.2.eq_classes = g.eq_classes ∧
        g.get_vertices_st.2.name = g.name) ∧
      (g.get_edges_st.2.contexts = g.contexts ∧
        g.get_edges_st.2.eq_classes = g.eq_classes ∧
        g.get_edges_st.2.name = g.name) ∧
      ((g.get_eq_st sym).2.contexts = g.contexts ∧
        (g.get_eq_st sym).2.eq_classes = g.eq_classes ∧
        (g.get_eq_st sym).2.name = g.name) ∧
      ((algorithm_one_two_st g s_prime).2.contexts = g.contexts ∧
        (algorithm_one_two_st g s_prime).2.eq_classes = g.eq_classes ∧
        (algorithm_one_two_st g s_prime).2.name = g.name)) :=
  ⟨⟨rfl, rfl, rfl⟩, ⟨rfl, rfl, rfl⟩, ⟨rfl, rfl, rfl⟩, ⟨rfl, rfl, rfl⟩⟩

end SLG
